import Mathlib

/-!
Verification development for the edge-server placement algorithms
(`src/algorithms.py` of CityU-HAN/edge-server-placement).

The Python module implements a family of placement strategies over a fixed
list of base stations and a precomputed pairwise distance table:

* `ServerPlacement` — shared distance helper and objective functions;
* `MIPServerPlacement` — an incomplete MIP variant; only its preprocessing
  step (`preprocess_problem`) has algorithmic content;
* `KMeansServerPlacement` — k-means clustering over coordinates;
* `TopKServerPlacement` — seeds at the `k` stations of largest workload;
* `RandomServerPlacement` — seeds at a random sample of `k` stations.

Numbers are modelled by `ℚ` (the Python code uses floats; all the facts
proved here are about comparisons, sums and control flow, none of which
depend on rounding).  External collaborators that are not part of the
repository are modelled by parameters:

* `DataUtils.calc_distance` (file `utils.py`, not in scope) is an arbitrary
  function `calcDist : ℚ → ℚ → ℚ → ℚ → ℚ`;
* `scipy.cluster.vq.kmeans2` is represented by its outputs: a centroid list
  and a label list, universally quantified;
* `random.sample` is represented by the sampled list of base stations.
-/

/-- Modelled from the spec: a base station (demand point) as loaded by the
data collaborator (`base_station.py` is not part of the source under
verification): identifier, coordinates and workload. -/
structure BaseStation where
  id : ℕ
  latitude : ℚ
  longitude : ℚ
  workload : ℚ
deriving DecidableEq

/-- Modelled from the spec: an edge server (service point) as constructed by
`edge_server.py` (not part of the source under verification): identifier,
coordinates, optional co-located base-station id, assigned stations and
accumulated workload.  Fresh servers start with no assignments and zero
workload. -/
structure EdgeServer where
  id : ℕ
  latitude : ℚ
  longitude : ℚ
  base_station_id : Option ℕ
  assigned_base_stations : List BaseStation
  workload : ℚ
deriving DecidableEq

/-- Placeholder server used as the default value of total list lookups. -/
def dummyES : EdgeServer := ⟨0, 0, 0, none, [], 0⟩

/-- The type of the external geometric distance function
`DataUtils.calc_distance(lat_a, lng_a, lat_b, lng_b)`. -/
abbrev CalcDist : Type := ℚ → ℚ → ℚ → ℚ → ℚ

/-- The precomputed pairwise distance table `self.distances`. -/
abbrev DistTable : Type := List (List ℚ)

/-- Entry `distances[i][j]` of the distance table. -/
def tableLookup (dt : DistTable) (i j : ℕ) : ℚ :=
  (List.getD dt i []).getD j 0

/-- `ServerPlacement._distance_edge_server_base_station`.  The Python guard
is `if edge_server.base_station_id:`, which is *truthiness*: it takes the
table branch only when the id is present AND nonzero; `None` and `0` both
fall through to `DataUtils.calc_distance` on the coordinates. -/
def distES (cd : CalcDist) (dt : DistTable) (es : EdgeServer) (bs : BaseStation) : ℚ :=
  match es.base_station_id with
  | some i =>
      if i = 0 then cd es.latitude es.longitude bs.latitude bs.longitude
      else tableLookup dt i bs.id
  | none => cd es.latitude es.longitude bs.latitude bs.longitude

/-- The sentinel `min_distance = 1e10` that starts the nearest-server scan
(`1e10` is the exact float `10^10`). -/
def sentinel : ℚ := 10000000000

/-- The inner scan `for j, edge_server in enumerate(edge_servers): ...` of
the shared nearest-assignment loop, carrying the running index, the current
`closest_edge_server` (by index, `none` for Python's `None`) and the current
`min_distance`.  A new candidate wins only on a strictly smaller distance. -/
def selectClosestAux (cd : CalcDist) (dt : DistTable) (bs : BaseStation) :
    List EdgeServer → ℕ → Option ℕ → ℚ → Option ℕ × ℚ
  | [], _, best, m => (best, m)
  | e :: rest, j, best, m =>
      if distES cd dt e bs < m then
        selectClosestAux cd dt bs rest (j + 1) (some j) (distES cd dt e bs)
      else
        selectClosestAux cd dt bs rest (j + 1) best m

/-- One full scan for one base station, started with `closest_edge_server =
None` and `min_distance = 1e10`. -/
def selectClosest (cd : CalcDist) (dt : DistTable) (servers : List EdgeServer)
    (bs : BaseStation) : Option ℕ × ℚ :=
  selectClosestAux cd dt bs servers 0 none sentinel

/-- Effect of `closest_edge_server.assigned_base_stations.append(bs)`
followed by `closest_edge_server.workload += bs.workload`. -/
def addAssignment (es : EdgeServer) (bs : BaseStation) : EdgeServer :=
  { es with assigned_base_stations := es.assigned_base_stations ++ [bs],
            workload := es.workload + bs.workload }

/-- In-place update of the list element at index `j` (mutating the aliased
`closest_edge_server` object mutates the list entry). Out-of-range indices
leave the list unchanged; they never occur in the runs modelled here. -/
def modifyAt : List α → ℕ → (α → α) → List α
  | [], _, _ => []
  | x :: xs, 0, f => f x :: xs
  | x :: xs, n + 1, f => x :: modifyAt xs n f

/-- Body of the shared assignment loop for one base station: scan for the
closest server, then append and accumulate on it.  When the scan finds no
server (`closest_edge_server` still `None`), the Python code raises
`AttributeError: 'NoneType' object has no attribute
'assigned_base_stations'`; that crash is modelled by `none`. -/
def assignBS (cd : CalcDist) (dt : DistTable) (servers : List EdgeServer)
    (bs : BaseStation) : Option (List EdgeServer) :=
  match (selectClosest cd dt servers bs).1 with
  | none => none
  | some j => some (modifyAt servers j (fun e => addAssignment e bs))

/-- The shared nearest-assignment loop of `TopKServerPlacement.place_server`
and `RandomServerPlacement.place_server`, over the whole station sequence. -/
def assignAll (cd : CalcDist) (dt : DistTable) :
    List EdgeServer → List BaseStation → Option (List EdgeServer)
  | servers, [] => some servers
  | servers, bs :: rest =>
      match assignBS cd dt servers bs with
      | none => none
      | some servers2 => assignAll cd dt servers2 rest

/-- Python's `enumerate`, starting at `i`. -/
def enumFrom (i : ℕ) : List α → List (ℕ × α)
  | [] => []
  | x :: xs => (i, x) :: enumFrom (i + 1) xs

/-- The seed construction shared by Top-K and Random:
`[EdgeServer(i, item.latitude, item.longitude, item.id) for i, item in
enumerate(chosen)]`. -/
def seedServers (chosen : List BaseStation) : List EdgeServer :=
  (enumFrom 0 chosen).map (fun p =>
    ⟨p.1, p.2.latitude, p.2.longitude, some p.2.id, [], 0⟩)

/-- `sorted(self.base_stations, key=lambda x: x.workload, reverse=True)`:
Python's sort is stable, and `reverse=True` keeps equal-key elements in
their original relative order; `List.insertionSort` with the relation
`b.workload ≤ a.workload` ("a may precede b") has exactly this behaviour
(permutation, descending order and stability are proved below). -/
def sortedByWorkloadDesc (l : List BaseStation) : List BaseStation :=
  List.insertionSort (fun a b => b.workload ≤ a.workload) l

/-- The seed list of `TopKServerPlacement.place_server`: the first
`edge_server_num` stations of the descending-workload ordering. -/
def topKSeeds (bs : List BaseStation) (k : ℕ) : List EdgeServer :=
  seedServers ((sortedByWorkloadDesc bs).take k)

/-- `TopKServerPlacement.place_server` (the assignment loop runs over
`sorted_base_stations`).  `none` models a crash of the Python code. -/
def topKPlace (cd : CalcDist) (dt : DistTable) (bs : List BaseStation)
    (k : ℕ) : Option (List EdgeServer) :=
  assignAll cd dt (topKSeeds bs k) (sortedByWorkloadDesc bs)

/-- `RandomServerPlacement.place_server`, parametrised by the outcome
`sample` of `random.sample(self.base_stations, edge_server_num)` (the
assignment loop runs over the original `base_stations` order). -/
def randomPlace (cd : CalcDist) (dt : DistTable) (bs : List BaseStation)
    (sample : List BaseStation) : Option (List EdgeServer) :=
  assignAll cd dt (seedServers sample) bs

/-- The k-means result-processing loop
`for bs, es in enumerate(label): edge_servers[es].assigned... .append(...)`:
each pair carries one base station and its cluster label; a label outside
the server list raises `IndexError` (modelled by `none`). -/
def kmeansAssign : List EdgeServer → List (BaseStation × ℕ) → Option (List EdgeServer)
  | servers, [] => some servers
  | servers, (b, lab) :: rest =>
      if lab < servers.length then
        kmeansAssign (modifyAt servers lab (fun e => addAssignment e b)) rest
      else none

/-- `KMeansServerPlacement.place_server`, parametrised by the outputs
`centroid, label` of `scipy.cluster.vq.kmeans2` (which returns one label per
input point, whence the length guard).  Builds one fresh server per
centroid (`EdgeServer(i, row[0], row[1])`, no co-located station), assigns
every station to its labelled cluster, then keeps only servers with
`workload != 0`. -/
def kmeansPlace (cents : List (ℚ × ℚ)) (label : List ℕ)
    (bs : List BaseStation) : Option (List EdgeServer) :=
  if label.length = bs.length then
    (kmeansAssign
        ((enumFrom 0 cents).map (fun p => ⟨p.1, p.2.1, p.2.2, none, [], 0⟩))
        (bs.zip label)).map
      (fun l => l.filter (fun e => decide (e.workload ≠ 0)))
  else none

/-- Modelled from the spec: `numpy.argpartition(row, cap)[:cap]` selects the
indices of the `cap` smallest entries of `row` (`numpy` is an external
library; its partial-selection contract — every selected entry no greater
than every non-selected one — is realised here by a stable ascending sort of
the indexed row, ties resolved by index).  `kth = cap` must be a valid
index, `cap < len(row)`; otherwise numpy raises `ValueError` (modelled by
`none`). -/
def argpartitionTake (row : List ℚ) (cap : ℕ) : Option (List ℕ) :=
  if cap < row.length then
    some (((List.insertionSort (fun p q : ℕ × ℚ => p.2 ≤ q.2)
      (enumFrom 0 row)).take cap).map Prod.fst)
  else none

/-- The per-row loop of `MIPServerPlacement.preprocess_problem`, collecting
the selected neighborhoods of every row of the distance table. -/
def selectRows (cap : ℕ) : List (List ℚ) → Option (List (List ℕ))
  | [] => some []
  | row :: rest =>
      match argpartitionTake row cap with
      | none => none
      | some sel => (selectRows cap rest).map (fun l => sel :: l)

/-- `MIPServerPlacement.preprocess_problem(k)` with `n` the number of base
stations: `cap = int(len(self.base_stations)/k)` followed by one
`argpartition` per row of `self.distances` (`k = 0` would divide by zero). -/
def preprocess_problem (dt : DistTable) (n k : ℕ) : Option (List (List ℕ)) :=
  if k = 0 then none else selectRows (n / k) dt

/-- The mutable state of a `ServerPlacement` instance: the fields set by
`__init__` plus the `edge_servers` result slot (`None` until a successful
placement run). -/
structure PlacementState where
  base_stations : List BaseStation
  distances : DistTable
  edge_servers : Option (List EdgeServer)
deriving DecidableEq

/-- `ServerPlacement.__init__` (the list is copied, the table aliased;
`edge_servers` starts as `None`). -/
def initState (bs : List BaseStation) (dt : DistTable) : PlacementState :=
  ⟨bs, dt, none⟩

/-- `TopKServerPlacement.place_server` acting on the instance state: on
success only `self.edge_servers` is replaced. -/
def topKPlaceServer (cd : CalcDist) (s : PlacementState) (k : ℕ) :
    Option PlacementState :=
  (topKPlace cd s.distances s.base_stations k).map
    (fun es => ⟨s.base_stations, s.distances, some es⟩)

/-- `RandomServerPlacement.place_server` acting on the instance state. -/
def randomPlaceServer (cd : CalcDist) (s : PlacementState)
    (sample : List BaseStation) : Option PlacementState :=
  (randomPlace cd s.distances s.base_stations sample).map
    (fun es => ⟨s.base_stations, s.distances, some es⟩)

/-- `KMeansServerPlacement.place_server` acting on the instance state. -/
def kmeansPlaceServer (s : PlacementState) (cents : List (ℚ × ℚ))
    (label : List ℕ) : Option PlacementState :=
  (kmeansPlace cents label s.base_stations).map
    (fun es => ⟨s.base_stations, s.distances, some es⟩)

/-- `MIPServerPlacement.place_server` acting on the instance state: it runs
the preprocessing and then an incomplete solver stub that reads no instance
field and writes none, so the state is returned unchanged (the stub's cplex
calls are external and modelled as a no-op on the state). -/
def mipPlaceServer (s : PlacementState) (k : ℕ) : Option PlacementState :=
  (preprocess_problem s.distances s.base_stations.length k).map (fun _ => s)

/-- Errors with which evaluation of an objective can fail: the failing
`assert self.edge_servers` (the spec's `PrematureEvaluationError`) and the
division by zero on an empty assignment (the spec's `EmptyPlacementError`). -/
inductive EvalError where
  | prematureEvaluation : EvalError
  | emptyPlacement : EvalError
deriving DecidableEq

/-- `ServerPlacement.objective_latency`: `assert self.edge_servers` (falsy
for both `None` and `[]`), then the average of the server/station distances
over all assignments (`total_delay / base_station_num`, a
`ZeroDivisionError` when no station is assigned). -/
def objective_latency (cd : CalcDist) (s : PlacementState) : Except EvalError ℚ :=
  match s.edge_servers with
  | none => .error .prematureEvaluation
  | some [] => .error .prematureEvaluation
  | some (e :: es) =>
      let servers := e :: es
      let total : ℚ :=
        (servers.map (fun srv =>
          ((srv.assigned_base_stations).map (fun b => distES cd s.distances srv b)).sum)).sum
      let n : ℕ := (servers.map (fun srv => srv.assigned_base_stations.length)).sum
      if n = 0 then .error .emptyPlacement else .ok (total / n)

/-- Number of occurrences of one base station value in a list. -/
def countOcc (b : BaseStation) : List BaseStation → ℕ
  | [] => 0
  | x :: xs => (if x = b then 1 else 0) + countOcc b xs

/-- Total number of times a base station value occurs across the assignment
lists of a placement. -/
def countAssigned (servers : List EdgeServer) (b : BaseStation) : ℕ :=
  (servers.map (fun e => countOcc b e.assigned_base_stations)).sum

/-- Sum of the `workload` fields of a placement. -/
def totalWorkload (servers : List EdgeServer) : ℚ :=
  (servers.map (fun e => e.workload)).sum

/-- The fields of an edge server that the assignment loop never changes and
that the distance function depends on. -/
def staticOf (e : EdgeServer) : ℕ × ℚ × ℚ × Option ℕ :=
  (e.id, e.latitude, e.longitude, e.base_station_id)

/-- Minimum of the candidate distances and the `1e10` sentinel, the value
`min_distance` holds after a full scan. -/
def minDist (cd : CalcDist) (dt : DistTable) (bs : BaseStation) :
    List EdgeServer → ℚ
  | [] => sentinel
  | e :: rest => min (distES cd dt e bs) (minDist cd dt bs rest)

/-- Index of the first candidate attaining `minDist`, the index
`closest_edge_server` holds after a full scan (meaningful whenever
`minDist < sentinel`). -/
def firstMinIdx (cd : CalcDist) (dt : DistTable) (bs : BaseStation) :
    List EdgeServer → ℕ
  | [] => 0
  | e :: rest =>
      if minDist cd dt bs rest < distES cd dt e bs then
        firstMinIdx cd dt bs rest + 1
      else 0

/-- Invariant of a server during assignment with positive workloads: its
workload field is the sum of its assigned workloads, and all of those are
positive. -/
def WInv (e : EdgeServer) : Prop :=
  e.workload = (e.assigned_base_stations.map (fun b => b.workload)).sum ∧
  ∀ a ∈ e.assigned_base_stations, 0 < a.workload

instance : IsTotal BaseStation (fun a b => b.workload ≤ a.workload) :=
  ⟨fun a b => le_total b.workload a.workload⟩

instance : IsTrans BaseStation (fun a b => b.workload ≤ a.workload) :=
  ⟨fun _ _ _ hab hbc => le_trans hbc hab⟩

instance : IsTotal (ℕ × ℚ) (fun p q => p.2 ≤ q.2) :=
  ⟨fun p q => le_total p.2 q.2⟩

instance : IsTrans (ℕ × ℚ) (fun p q => p.2 ≤ q.2) :=
  ⟨fun _ _ _ => le_trans⟩

/-! ### Concrete sample inputs used to evaluate the model -/

/-- A geometric distance function that is constantly zero. -/
def cdZero : CalcDist := fun _ _ _ _ => 0

/-- A geometric distance function returning the sum of all four
coordinates (used to tell the two branches of the distance helper apart). -/
def cdSum : CalcDist := fun a b c d => a + b + c + d

/-- A base station with identifier `0` and zero workload. -/
def bsW0 : BaseStation := ⟨0, 0, 0, 0⟩

/-- A base station with identifier `0` and unit workload. -/
def bsA : BaseStation := ⟨0, 0, 0, 1⟩

/-- A base station with identifier `1`, co-located with `bsA`. -/
def bsB : BaseStation := ⟨1, 0, 0, 1⟩

/-- A base station at coordinates `(3, 4)` with workload `5`. -/
def bsC : BaseStation := ⟨0, 3, 4, 5⟩

/-- A 2×2 all-zero distance table for `bsA`/`bsB`. -/
def dtAB : DistTable := [[0, 0], [0, 0]]

/-- A 2×2 distance table with pairwise distinct entries. -/
def dtNum : DistTable := [[9, 8], [7, 6]]

/-- An edge server co-located with base station `0` (truthiness-falsy id). -/
def esId0 : EdgeServer := ⟨0, 1, 2, some 0, [], 0⟩

/-- An edge server co-located with base station `1` (truthiness-truthy id). -/
def esId1 : EdgeServer := ⟨0, 1, 2, some 1, [], 0⟩

/-- The four equal-workload stations of the spec scenario, at coordinates
`(0,0), (0,1), (1,0), (1,1)`, workloads all `1`. -/
def demo4 : List BaseStation := [⟨0, 0, 0, 1⟩, ⟨1, 0, 1, 1⟩, ⟨2, 1, 0, 1⟩, ⟨3, 1, 1, 1⟩]

/-- The placement produced by the Top-K strategy on `[bsA, bsB]` with
`k = 2`: both stations land on the first server, the second keeps zero
workload. -/
def topKDemoRes : List EdgeServer :=
  [⟨0, 0, 0, some 0, [bsA, bsB], 2⟩, ⟨1, 0, 0, some 1, [], 0⟩]

/-- A single fresh server seeded at `bsA`. -/
def seedA : EdgeServer := ⟨0, 0, 0, some 0, [], 0⟩

/-- The k-means placement of `[bsA]` with one centroid at the origin. -/
def kmDemoRes : List EdgeServer := [⟨0, 0, 0, none, [bsA], 1⟩]

/-- The instance state after a Top-K run on a single station. -/
def stateDemo : PlacementState :=
  ⟨[bsA], [[0]], some [⟨0, 0, 0, some 0, [bsA], 1⟩]⟩

/-! ### Basic lemmas about the list helpers -/

theorem length_enumFrom (i : ℕ) (l : List α) : (enumFrom i l).length = l.length := by
  induction l generalizing i with
  | nil => rfl
  | cons x xs ih => simp [enumFrom, ih]

theorem getD_enumFrom (d : ℕ × α) (d' : α) :
    ∀ (l : List α) (i j : ℕ), j < l.length →
      (enumFrom i l).getD j d = (i + j, l.getD j d') := by
  intro l
  induction l with
  | nil => intro i j h; simp at h
  | cons x xs ih =>
      intro i j h
      cases j with
      | zero => simp [enumFrom]
      | succ j' =>
          have hj : j' < xs.length := by simpa using h
          have harith : i + (j' + 1) = (i + 1) + j' := by omega
          simp only [enumFrom, List.getD_cons_succ, harith]
          exact ih (i + 1) j' hj

theorem fst_ge_of_mem_enumFrom {p : ℕ × α} :
    ∀ {l : List α} {i : ℕ}, p ∈ enumFrom i l → i ≤ p.1 := by
  intro l
  induction l with
  | nil => intro i h; simp [enumFrom] at h
  | cons x xs ih =>
      intro i h
      rcases (by simpa [enumFrom] using h : p = (i, x) ∨ p ∈ enumFrom (i + 1) xs) with h1 | h2
      · subst h1; exact le_refl i
      · exact le_trans (Nat.le_succ i) (ih h2)

theorem snd_of_mem_enumFrom (d : α) {p : ℕ × α} :
    ∀ {l : List α} {i : ℕ}, p ∈ enumFrom i l →
      i ≤ p.1 ∧ p.1 - i < l.length ∧ p.2 = l.getD (p.1 - i) d := by
  intro l
  induction l with
  | nil => intro i h; simp [enumFrom] at h
  | cons x xs ih =>
      intro i h
      rcases (by simpa [enumFrom] using h : p = (i, x) ∨ p ∈ enumFrom (i + 1) xs) with h1 | h2
      · subst h1; simp
      · obtain ⟨ha, hb, hc⟩ := ih h2
        refine ⟨by omega, by simp; omega, ?_⟩
        have harith : p.1 - i = (p.1 - (i + 1)) + 1 := by omega
        rw [harith, List.getD_cons_succ]
        exact hc

theorem mem_enumFrom_of_lt (d : α) :
    ∀ (l : List α) (i j : ℕ), j < l.length → (i + j, l.getD j d) ∈ enumFrom i l := by
  intro l
  induction l with
  | nil => intro i j h; simp at h
  | cons x xs ih =>
      intro i j h
      cases j with
      | zero => simp [enumFrom]
      | succ j' =>
          have hj : j' < xs.length := by simpa using h
          have harith : i + (j' + 1) = (i + 1) + j' := by omega
          simp only [enumFrom, List.getD_cons_succ, harith, List.mem_cons]
          exact Or.inr (ih (i + 1) j' hj)

theorem nodup_map_fst_enumFrom : ∀ (l : List α) (i : ℕ),
    ((enumFrom i l).map Prod.fst).Nodup := by
  intro l
  induction l with
  | nil => intro i; simp [enumFrom]
  | cons x xs ih =>
      intro i
      simp only [enumFrom, List.map_cons, List.nodup_cons]
      refine ⟨?_, ih (i + 1)⟩
      intro hmem
      obtain ⟨p, hp, hfst⟩ := List.mem_map.1 hmem
      have := fst_ge_of_mem_enumFrom hp
      omega

theorem length_modifyAt (g : α → α) :
    ∀ (l : List α) (j : ℕ), (modifyAt l j g).length = l.length := by
  intro l
  induction l with
  | nil => intro j; rfl
  | cons x xs ih =>
      intro j
      cases j with
      | zero => rfl
      | succ j' => simp [modifyAt, ih]

theorem map_modifyAt_invar (g : α → α) (h : α → β) (hcomp : ∀ x, h (g x) = h x) :
    ∀ (l : List α) (j : ℕ), (modifyAt l j g).map h = l.map h := by
  intro l
  induction l with
  | nil => intro j; rfl
  | cons x xs ih =>
      intro j
      cases j with
      | zero => simp [modifyAt, hcomp]
      | succ j' => simp [modifyAt, ih]

theorem sum_map_modifyAt {M : Type} [AddCommMonoid M] (g : α → α) (f : α → M) (c : M)
    (hf : ∀ x, f (g x) = f x + c) :
    ∀ (l : List α) (j : ℕ), j < l.length →
      ((modifyAt l j g).map f).sum = (l.map f).sum + c := by
  intro l
  induction l with
  | nil => intro j h; simp at h
  | cons x xs ih =>
      intro j h
      cases j with
      | zero =>
          simp only [modifyAt, List.map_cons, List.sum_cons, hf]
          rw [add_right_comm]
      | succ j' =>
          have hj : j' < xs.length := by simpa using h
          simp only [modifyAt, List.map_cons, List.sum_cons, ih xs.length, ih j' hj]
          rw [add_assoc]

theorem getD_modifyAt_self (g : α → α) :
    ∀ (l : List α) (j : ℕ), j < l.length → ∀ d,
      (modifyAt l j g).getD j d = g (l.getD j d) := by
  intro l
  induction l with
  | nil => intro j h; simp at h
  | cons x xs ih =>
      intro j h d
      cases j with
      | zero => rfl
      | succ j' =>
          have hj : j' < xs.length := by simpa using h
          simp only [modifyAt, List.getD_cons_succ]
          exact ih j' hj d

theorem getD_modifyAt_ne (g : α → α) :
    ∀ (l : List α) (j i : ℕ), i ≠ j → ∀ d,
      (modifyAt l j g).getD i d = l.getD i d := by
  intro l
  induction l with
  | nil => intro j i h d; rfl
  | cons x xs ih =>
      intro j i h d
      cases j with
      | zero =>
          cases i with
          | zero => exact absurd rfl h
          | succ i' => rfl
      | succ j' =>
          cases i with
          | zero => rfl
          | succ i' =>
              simp only [modifyAt, List.getD_cons_succ]
              exact ih j' i' (by omega) d

theorem forall_mem_modifyAt {P : α → Prop} (g : α → α)
    (hg : ∀ x, P x → P (g x)) :
    ∀ (l : List α) (j : ℕ), (∀ x ∈ l, P x) → ∀ x ∈ modifyAt l j g, P x
  | [], _, _, x, hx => by simp [modifyAt] at hx
  | y :: ys, 0, hall, x, hx => by
      have hx2 : x = g y ∨ x ∈ ys := by simpa [modifyAt] using hx
      rcases hx2 with h1 | h2
      · subst h1; exact hg y (hall y (by simp))
      · exact hall x (by simp [h2])
  | y :: ys, j + 1, hall, x, hx => by
      have hx2 : x = y ∨ x ∈ modifyAt ys j g := by simpa [modifyAt] using hx
      rcases hx2 with h1 | h2
      · exact hall x (by simp [h1])
      · exact forall_mem_modifyAt g hg ys j (fun z hz => hall z (by simp [hz])) x h2

/-! ### Lemmas about occurrence counting -/

theorem countOcc_append (b : BaseStation) :
    ∀ (l1 l2 : List BaseStation), countOcc b (l1 ++ l2) = countOcc b l1 + countOcc b l2 := by
  intro l1 l2
  induction l1 with
  | nil => simp [countOcc]
  | cons x xs ih => simp [countOcc, ih]; omega

theorem countOcc_eq_length_filter (b : BaseStation) :
    ∀ l : List BaseStation, countOcc b l = (l.filter (fun x => decide (x = b))).length := by
  intro l
  induction l with
  | nil => rfl
  | cons x xs ih =>
      by_cases hx : x = b
      · simp [countOcc, List.filter_cons, hx, ih]
        omega
      · simp [countOcc, List.filter_cons, hx, ih]

theorem countOcc_of_perm (b : BaseStation) {l1 l2 : List BaseStation}
    (h : List.Perm l1 l2) : countOcc b l1 = countOcc b l2 := by
  rw [countOcc_eq_length_filter, countOcc_eq_length_filter]
  exact (h.filter _).length_eq

/-! ### Freshly seeded servers -/

theorem seedServers_fresh {e : EdgeServer} {l : List BaseStation}
    (h : e ∈ seedServers l) :
    e.assigned_base_stations = [] ∧ e.workload = 0 := by
  obtain ⟨p, _, hpe⟩ := List.mem_map.1 h
  subst hpe
  exact ⟨rfl, rfl⟩

theorem countAssigned_seedServers (l : List BaseStation) (b : BaseStation) :
    countAssigned (seedServers l) b = 0 := by
  apply List.sum_eq_zero
  intro x hx
  obtain ⟨e, he, hex⟩ := List.mem_map.1 hx
  obtain ⟨h1, _⟩ := seedServers_fresh he
  rw [← hex, h1]
  rfl

theorem totalWorkload_seedServers (l : List BaseStation) :
    totalWorkload (seedServers l) = 0 := by
  apply List.sum_eq_zero
  intro x hx
  obtain ⟨e, he, hex⟩ := List.mem_map.1 hx
  obtain ⟨_, h2⟩ := seedServers_fresh he
  rw [← hex, h2]

theorem kmeansSeeds_fresh {e : EdgeServer} {cents : List (ℚ × ℚ)}
    (h : e ∈ (enumFrom 0 cents).map (fun p => (⟨p.1, p.2.1, p.2.2, none, [], 0⟩ : EdgeServer))) :
    e.assigned_base_stations = [] ∧ e.workload = 0 := by
  obtain ⟨p, _, hpe⟩ := List.mem_map.1 h
  subst hpe
  exact ⟨rfl, rfl⟩

/-! ### The distance function depends only on the static server fields -/

theorem distES_congr (cd : CalcDist) (dt : DistTable) {e e' : EdgeServer}
    (h : staticOf e = staticOf e') (b : BaseStation) :
    distES cd dt e b = distES cd dt e' b := by
  have h1 : e.latitude = e'.latitude := congrArg (fun s => s.2.1) h
  have h2 : e.longitude = e'.longitude := congrArg (fun s => s.2.2.1) h
  have h3 : e.base_station_id = e'.base_station_id := congrArg (fun s => s.2.2.2) h
  rw [distES, distES, h1, h2, h3]

theorem staticOf_addAssignment (e : EdgeServer) (b : BaseStation) :
    staticOf (addAssignment e b) = staticOf e := rfl

theorem minDist_congr (cd : CalcDist) (dt : DistTable) (b : BaseStation) :
    ∀ {l1 l2 : List EdgeServer}, l1.map staticOf = l2.map staticOf →
      minDist cd dt b l1 = minDist cd dt b l2 := by
  intro l1
  induction l1 with
  | nil =>
      intro l2 h
      cases l2 with
      | nil => rfl
      | cons y ys => simp at h
  | cons x xs ih =>
      intro l2 h
      cases l2 with
      | nil => simp at h
      | cons y ys =>
          simp only [List.map_cons, List.cons.injEq] at h
          rw [minDist, minDist, distES_congr cd dt h.1 b, ih h.2]

/-! ### Characterisation of the nearest-server scan -/

theorem minDist_le_sentinel (cd : CalcDist) (dt : DistTable) (b : BaseStation) :
    ∀ l : List EdgeServer, minDist cd dt b l ≤ sentinel := by
  intro l
  induction l with
  | nil => exact le_refl sentinel
  | cons e rest ih => exact le_trans (min_le_right _ _) ih

theorem minDist_le_distES (cd : CalcDist) (dt : DistTable) (b : BaseStation) :
    ∀ (l : List EdgeServer), ∀ e ∈ l, minDist cd dt b l ≤ distES cd dt e b := by
  intro l
  induction l with
  | nil => intro e he; simp at he
  | cons x xs ih =>
      intro e he
      rcases (by simpa using he : e = x ∨ e ∈ xs) with h1 | h2
      · rw [h1, minDist]; exact min_le_left _ _
      · exact le_trans (min_le_right _ _) (ih e h2)

theorem selectClosestAux_spec (cd : CalcDist) (dt : DistTable) (b : BaseStation) :
    ∀ (l : List EdgeServer) (j : ℕ) (best : Option ℕ) (m : ℚ), m ≤ sentinel →
      selectClosestAux cd dt b l j best m =
        if minDist cd dt b l < m
        then (some (j + firstMinIdx cd dt b l), minDist cd dt b l)
        else (best, m) := by
  intro l
  induction l with
  | nil =>
      intro j best m hm
      rw [selectClosestAux, minDist, if_neg (not_lt.mpr hm)]
  | cons e rest ih =>
      intro j best m hm
      by_cases hd : distES cd dt e b < m
      · rw [selectClosestAux, if_pos hd,
            ih (j + 1) (some j) _ (le_of_lt (lt_of_lt_of_le hd hm))]
        by_cases hrest : minDist cd dt b rest < distES cd dt e b
        · have hmin : minDist cd dt b (e :: rest) = minDist cd dt b rest := by
            rw [minDist]; exact min_eq_right (le_of_lt hrest)
          rw [if_pos hrest, if_pos (by rw [hmin]; exact lt_trans hrest hd)]
          have harith : (j + 1) + firstMinIdx cd dt b rest
              = j + (firstMinIdx cd dt b rest + 1) := by omega
          rw [hmin, firstMinIdx, if_pos hrest, harith]
        · have hmin : minDist cd dt b (e :: rest) = distES cd dt e b := by
            rw [minDist]; exact min_eq_left (not_lt.1 hrest)
          rw [if_neg hrest, if_pos (by rw [hmin]; exact hd)]
          rw [hmin, firstMinIdx, if_neg hrest, Nat.add_zero]
      · rw [selectClosestAux, if_neg hd, ih (j + 1) best m hm]
        by_cases hrest : minDist cd dt b rest < m
        · have hrd : minDist cd dt b rest < distES cd dt e b :=
            lt_of_lt_of_le hrest (not_lt.1 hd)
          have hmin : minDist cd dt b (e :: rest) = minDist cd dt b rest := by
            rw [minDist]; exact min_eq_right (le_of_lt hrd)
          rw [if_pos hrest, if_pos (by rw [hmin]; exact hrest)]
          have harith : (j + 1) + firstMinIdx cd dt b rest
              = j + (firstMinIdx cd dt b rest + 1) := by omega
          rw [hmin, firstMinIdx, if_pos hrd, harith]
        · rw [if_neg hrest, if_neg ?hcond]
          case hcond =>
            rw [minDist, min_lt_iff]
            rintro (h1 | h2)
            · exact hd h1
            · exact hrest h2

theorem selectClosest_eq (cd : CalcDist) (dt : DistTable)
    (servers : List EdgeServer) (b : BaseStation) :
    selectClosest cd dt servers b =
      if minDist cd dt b servers < sentinel
      then (some (firstMinIdx cd dt b servers), minDist cd dt b servers)
      else (none, sentinel) := by
  rw [selectClosest, selectClosestAux_spec cd dt b servers 0 none sentinel (le_refl _)]
  by_cases h : minDist cd dt b servers < sentinel
  · rw [if_pos h, if_pos h, Nat.zero_add]
  · rw [if_neg h, if_neg h]

theorem firstMinIdx_lt_length (cd : CalcDist) (dt : DistTable) (b : BaseStation) :
    ∀ l : List EdgeServer, minDist cd dt b l < sentinel →
      firstMinIdx cd dt b l < l.length := by
  intro l
  induction l with
  | nil => intro h; exact absurd h (lt_irrefl sentinel)
  | cons e rest ih =>
      intro h
      rw [firstMinIdx]
      by_cases hrest : minDist cd dt b rest < distES cd dt e b
      · rw [if_pos hrest]
        have hr : minDist cd dt b rest < sentinel := by
          have : minDist cd dt b (e :: rest) = minDist cd dt b rest := by
            rw [minDist]; exact min_eq_right (le_of_lt hrest)
          rw [← this]; exact h
        simpa using ih hr
      · rw [if_neg hrest]
        simp

theorem getD_firstMinIdx (cd : CalcDist) (dt : DistTable) (b : BaseStation) :
    ∀ l : List EdgeServer, minDist cd dt b l < sentinel →
      distES cd dt (l.getD (firstMinIdx cd dt b l) dummyES) b = minDist cd dt b l := by
  intro l
  induction l with
  | nil => intro h; exact absurd h (lt_irrefl sentinel)
  | cons e rest ih =>
      intro h
      by_cases hrest : minDist cd dt b rest < distES cd dt e b
      · have hmin : minDist cd dt b (e :: rest) = minDist cd dt b rest := by
          rw [minDist]; exact min_eq_right (le_of_lt hrest)
        have hr : minDist cd dt b rest < sentinel := by rw [← hmin]; exact h
        rw [firstMinIdx, if_pos hrest, List.getD_cons_succ, hmin]
        exact ih hr
      · have hmin : minDist cd dt b (e :: rest) = distES cd dt e b := by
          rw [minDist]; exact min_eq_left (not_lt.1 hrest)
        rw [firstMinIdx, if_neg hrest, List.getD_cons_zero, hmin]

theorem firstMinIdx_strict (cd : CalcDist) (dt : DistTable) (b : BaseStation) :
    ∀ l : List EdgeServer, minDist cd dt b l < sentinel →
      ∀ i < firstMinIdx cd dt b l,
        minDist cd dt b l < distES cd dt (l.getD i dummyES) b := by
  intro l
  induction l with
  | nil => intro h; exact absurd h (lt_irrefl sentinel)
  | cons e rest ih =>
      intro h i hi
      by_cases hrest : minDist cd dt b rest < distES cd dt e b
      · have hmin : minDist cd dt b (e :: rest) = minDist cd dt b rest := by
          rw [minDist]; exact min_eq_right (le_of_lt hrest)
        have hr : minDist cd dt b rest < sentinel := by rw [← hmin]; exact h
        rw [firstMinIdx, if_pos hrest] at hi
        cases i with
        | zero => rw [List.getD_cons_zero, hmin]; exact hrest
        | succ i' =>
            rw [List.getD_cons_succ, hmin]
            exact ih hr i' (by omega)
      · rw [firstMinIdx, if_neg hrest] at hi
        exact absurd hi (Nat.not_lt_zero i)

/-! ### Characterisation of one assignment step and of the whole loop -/

theorem assignBS_eq (cd : CalcDist) (dt : DistTable)
    (servers : List EdgeServer) (b : BaseStation) :
    assignBS cd dt servers b =
      if minDist cd dt b servers < sentinel
      then some (modifyAt servers (firstMinIdx cd dt b servers)
        (fun e => addAssignment e b))
      else none := by
  rw [assignBS, selectClosest_eq]
  by_cases h : minDist cd dt b servers < sentinel
  · rw [if_pos h, if_pos h]
  · rw [if_neg h, if_neg h]

theorem countOcc_addAssignment (b b0 : BaseStation) (e : EdgeServer) :
    countOcc b (addAssignment e b0).assigned_base_stations
      = countOcc b e.assigned_base_stations + (if b0 = b then 1 else 0) := by
  rw [addAssignment]
  rw [countOcc_append]
  simp [countOcc]

theorem assignAll_some_spec (cd : CalcDist) (dt : DistTable) :
    ∀ (bss : List BaseStation) (servers res : List EdgeServer),
      assignAll cd dt servers bss = some res →
      res.map staticOf = servers.map staticOf ∧
      (∀ b, countAssigned res b = countAssigned servers b + countOcc b bss) ∧
      totalWorkload res = totalWorkload servers
        + (bss.map (fun x => x.workload)).sum := by
  intro bss
  induction bss with
  | nil =>
      intro servers res h
      have hres : servers = res := by simpa [assignAll] using h
      subst hres
      simp [countOcc]
  | cons b0 rest ih =>
      intro servers res h
      cases hstep : assignBS cd dt servers b0 with
      | none => rw [assignAll, hstep] at h; cases h
      | some mid =>
          rw [assignAll, hstep] at h
          rw [assignBS_eq] at hstep
          by_cases hmin : minDist cd dt b0 servers < sentinel
          · rw [if_pos hmin] at hstep
            have hj := firstMinIdx_lt_length cd dt b0 servers hmin
            have hmid : mid = modifyAt servers (firstMinIdx cd dt b0 servers)
                (fun e => addAssignment e b0) := by
              injection hstep with h2; exact h2.symm
            obtain ⟨h1, h2, h3⟩ := ih mid res h
            refine ⟨?_, ?_, ?_⟩
            · rw [h1, hmid]
              exact map_modifyAt_invar _ staticOf
                (fun x => staticOf_addAssignment x b0) servers _
            · intro b
              have hcnt : countAssigned mid b
                  = countAssigned servers b + (if b0 = b then 1 else 0) := by
                rw [hmid]
                exact sum_map_modifyAt _ _ _
                  (fun x => countOcc_addAssignment b b0 x) servers _ hj
              rw [h2 b, hcnt, countOcc]
              omega
            · have hwl : totalWorkload mid = totalWorkload servers + b0.workload := by
                rw [hmid]
                exact sum_map_modifyAt _ _ _ (fun x => rfl) servers _ hj
              rw [h3, hwl, List.map_cons, List.sum_cons, add_assoc]
          · rw [if_neg hmin] at hstep; cases hstep

theorem assignAll_isSome (cd : CalcDist) (dt : DistTable) :
    ∀ (bss : List BaseStation) (servers : List EdgeServer),
      (∀ b ∈ bss, minDist cd dt b servers < sentinel) →
      ∃ res, assignAll cd dt servers bss = some res := by
  intro bss
  induction bss with
  | nil => intro servers _; exact ⟨servers, rfl⟩
  | cons b0 rest ih =>
      intro servers hmin
      have hm0 : minDist cd dt b0 servers < sentinel := hmin b0 (by simp)
      set mid := modifyAt servers (firstMinIdx cd dt b0 servers)
        (fun e => addAssignment e b0) with hmid
      have hstat : mid.map staticOf = servers.map staticOf :=
        map_modifyAt_invar _ staticOf (fun x => staticOf_addAssignment x b0)
          servers _
      have hrest : ∀ b ∈ rest, minDist cd dt b mid < sentinel := by
        intro b hb
        rw [minDist_congr cd dt b hstat]
        exact hmin b (by simp [hb])
      obtain ⟨res, hres⟩ := ih mid hrest
      refine ⟨res, ?_⟩
      rw [assignAll, assignBS_eq, if_pos hm0, ← hmid]
      exact hres

/-! ### Characterisation of the k-means result-processing loop -/

theorem WInv_addAssignment {e : EdgeServer} {b : BaseStation}
    (he : WInv e) (hb : 0 < b.workload) : WInv (addAssignment e b) := by
  obtain ⟨h1, h2⟩ := he
  constructor
  · show e.workload + b.workload = _
    rw [h1]
    simp [addAssignment]
  · intro a ha
    rcases (by simpa [addAssignment] using ha : a ∈ e.assigned_base_stations ∨ a = b)
      with h | h
    · exact h2 a h
    · rw [h]; exact hb

theorem kmeansAssign_some_spec :
    ∀ (pairs : List (BaseStation × ℕ)) (servers res : List EdgeServer),
      kmeansAssign servers pairs = some res →
      (∀ b, countAssigned res b
          = countAssigned servers b + countOcc b (pairs.map Prod.fst)) ∧
      totalWorkload res = totalWorkload servers
        + ((pairs.map Prod.fst).map (fun x => x.workload)).sum ∧
      ((∀ q ∈ pairs, 0 < q.1.workload) → (∀ e ∈ servers, WInv e) →
        ∀ e ∈ res, WInv e) := by
  intro pairs
  induction pairs with
  | nil =>
      intro servers res h
      have hres : servers = res := by simpa [kmeansAssign] using h
      subst hres
      refine ⟨by simp [countOcc], by simp, ?_⟩
      intro _ hserv e he
      exact hserv e he
  | cons q rest ih =>
      intro servers res h
      obtain ⟨b0, lab⟩ := q
      by_cases hlab : lab < servers.length
      · rw [kmeansAssign, if_pos hlab] at h
        set mid := modifyAt servers lab (fun e => addAssignment e b0) with hmid
        obtain ⟨h1, h2, h3⟩ := ih mid res h
        refine ⟨?_, ?_, ?_⟩
        · intro b
          have hcnt : countAssigned mid b
              = countAssigned servers b + (if b0 = b then 1 else 0) := by
            rw [hmid]
            exact sum_map_modifyAt _ _ _
              (fun x => countOcc_addAssignment b b0 x) servers _ hlab
          rw [h1 b, hcnt]
          simp only [List.map_cons, countOcc]
          omega
        · have hwl : totalWorkload mid = totalWorkload servers + b0.workload := by
            rw [hmid]
            exact sum_map_modifyAt _ _ _ (fun x => rfl) servers _ hlab
          rw [h2, hwl]
          simp only [List.map_cons, List.sum_cons]
          rw [add_assoc]
        · intro hpos hserv
          apply h3
          · intro p hp; exact hpos p (by simp [hp])
          · rw [hmid]
            apply forall_mem_modifyAt _
              (fun e he => WInv_addAssignment he (hpos (b0, lab) (by simp)))
              servers lab hserv
      · rw [kmeansAssign, if_neg hlab] at h; cases h

/-! ### Filtering out zero-workload servers -/

theorem countAssigned_filter {p : EdgeServer → Bool} :
    ∀ (srv : List EdgeServer) (b : BaseStation),
      (∀ e ∈ srv, p e = false → countOcc b e.assigned_base_stations = 0) →
      countAssigned (srv.filter p) b = countAssigned srv b := by
  intro srv
  induction srv with
  | nil => intro b _; rfl
  | cons e es ih =>
      intro b hp
      rw [List.filter_cons]
      by_cases hpe : p e = true
      · rw [if_pos hpe]
        show countOcc b e.assigned_base_stations + countAssigned (es.filter p) b
          = countOcc b e.assigned_base_stations + countAssigned es b
        rw [ih b (fun x hx h0 => hp x (by simp [hx]) h0)]
      · rw [if_neg hpe]
        have h0 := hp e (by simp) (by simpa using hpe)
        show countAssigned (es.filter p) b
          = countOcc b e.assigned_base_stations + countAssigned es b
        rw [ih b (fun x hx hx0 => hp x (by simp [hx]) hx0), h0, Nat.zero_add]

theorem totalWorkload_filter {p : EdgeServer → Bool} :
    ∀ (srv : List EdgeServer),
      (∀ e ∈ srv, p e = false → e.workload = 0) →
      totalWorkload (srv.filter p) = totalWorkload srv := by
  intro srv
  induction srv with
  | nil => intro _; rfl
  | cons e es ih =>
      intro hp
      rw [List.filter_cons]
      by_cases hpe : p e = true
      · rw [if_pos hpe]
        show e.workload + totalWorkload (es.filter p)
          = e.workload + totalWorkload es
        rw [ih (fun x hx h0 => hp x (by simp [hx]) h0)]
      · rw [if_neg hpe]
        have h0 := hp e (by simp) (by simpa using hpe)
        show totalWorkload (es.filter p)
          = e.workload + totalWorkload es
        rw [ih (fun x hx hx0 => hp x (by simp [hx]) hx0), h0, zero_add]

theorem eq_nil_of_sum_eq_zero_of_pos {l : List ℚ}
    (hpos : ∀ x ∈ l, 0 < x) (h : l.sum = 0) : l = [] := by
  cases l with
  | nil => rfl
  | cons x xs =>
      exfalso
      have hx : 0 < x := hpos x (by simp)
      have hxs : 0 ≤ xs.sum :=
        List.sum_nonneg (fun y hy => le_of_lt (hpos y (by simp [hy])))
      rw [List.sum_cons] at h
      linarith

/-! ### Stability of the descending-workload sort -/

theorem filter_orderedInsert_pos {r : α → α → Prop} [DecidableRel r]
    (p : α → Bool) (a : α) (h1 : p a = true)
    (h2 : ∀ b, ¬ r a b → p b = false) :
    ∀ l : List α, (List.orderedInsert r a l).filter p = a :: l.filter p := by
  intro l
  induction l with
  | nil => simp [List.orderedInsert, h1]
  | cons b bl ih =>
      by_cases hr : r a b
      · rw [List.orderedInsert, if_pos hr, List.filter_cons, if_pos h1]
      · rw [List.orderedInsert, if_neg hr, List.filter_cons,
          if_neg (by simp [h2 b hr]), ih, List.filter_cons,
          if_neg (by simp [h2 b hr])]

theorem filter_orderedInsert_neg {r : α → α → Prop} [DecidableRel r]
    (p : α → Bool) (a : α) (h1 : p a = false) :
    ∀ l : List α, (List.orderedInsert r a l).filter p = l.filter p := by
  intro l
  induction l with
  | nil => simp [List.orderedInsert, h1]
  | cons b bl ih =>
      by_cases hr : r a b
      · rw [List.orderedInsert, if_pos hr, List.filter_cons, if_neg (by simp [h1])]
      · rw [List.orderedInsert, if_neg hr, List.filter_cons, ih, List.filter_cons]

theorem filter_insertionSort {r : α → α → Prop} [DecidableRel r]
    (p : α → Bool) (hcompat : ∀ a b, p a = true → ¬ r a b → p b = false) :
    ∀ l : List α, (List.insertionSort r l).filter p = l.filter p := by
  intro l
  induction l with
  | nil => rfl
  | cons x xs ih =>
      show (List.orderedInsert r x (List.insertionSort r xs)).filter p = _
      by_cases hx : p x = true
      · rw [filter_orderedInsert_pos p x hx (fun b hr => hcompat x b hx hr), ih,
          List.filter_cons, if_pos hx]
      · have hx2 : p x = false := by simpa using hx
        rw [filter_orderedInsert_neg p x hx2, ih, List.filter_cons,
          if_neg (by simp [hx2])]

theorem sortedByWorkloadDesc_perm (l : List BaseStation) :
    List.Perm (sortedByWorkloadDesc l) l :=
  List.perm_insertionSort _ l

theorem sortedByWorkloadDesc_sorted (l : List BaseStation) :
    List.Sorted (fun a b => b.workload ≤ a.workload) (sortedByWorkloadDesc l) :=
  List.sorted_insertionSort _ l

theorem sortedByWorkloadDesc_stable (l : List BaseStation) (w : ℚ) :
    (sortedByWorkloadDesc l).filter (fun b => decide (b.workload = w))
      = l.filter (fun b => decide (b.workload = w)) := by
  apply filter_insertionSort
  intro a b ha hr
  have ha2 : a.workload = w := by simpa using ha
  have hb2 : a.workload < b.workload := lt_of_not_le hr
  simp
  intro hb3
  rw [ha2] at hb2
  rw [hb3] at hb2
  exact absurd hb2 (lt_irrefl w)

/-! ### Seed fields of the Top-K strategy -/

theorem length_seedServers (l : List BaseStation) :
    (seedServers l).length = l.length := by
  rw [seedServers, List.length_map, length_enumFrom]

theorem getD_seedServers_from (b0 : BaseStation) :
    ∀ (l : List BaseStation) (n i : ℕ), i < l.length →
      ((enumFrom n l).map (fun p =>
          (⟨p.1, p.2.latitude, p.2.longitude, some p.2.id, [], 0⟩ : EdgeServer))).getD i dummyES
        = ⟨n + i, (l.getD i b0).latitude, (l.getD i b0).longitude,
            some (l.getD i b0).id, [], 0⟩ := by
  intro l
  induction l with
  | nil => intro n i hi; simp at hi
  | cons x xs ih =>
      intro n i hi
      cases i with
      | zero => rfl
      | succ i' =>
          have hi' : i' < xs.length := by simpa using hi
          have harith : n + (i' + 1) = (n + 1) + i' := by omega
          simp only [enumFrom, List.map_cons, List.getD_cons_succ, harith]
          exact ih (n + 1) i' hi'

theorem getD_seedServers (l : List BaseStation) (i : ℕ) (hi : i < l.length)
    (b0 : BaseStation) :
    (seedServers l).getD i dummyES =
      ⟨i, (l.getD i b0).latitude, (l.getD i b0).longitude,
        some (l.getD i b0).id, [], 0⟩ := by
  rw [seedServers, getD_seedServers_from b0 l 0 i hi, Nat.zero_add]

/-! ### The argpartition-based neighborhood selection -/

theorem mem_enumFrom_zero {row : List ℚ} {p : ℕ × ℚ} (hp : p ∈ enumFrom 0 row) :
    p.1 < row.length ∧ p.2 = row.getD p.1 0 := by
  obtain ⟨-, h2, h3⟩ := snd_of_mem_enumFrom (0 : ℚ) hp
  constructor
  · simpa using h2
  · simpa using h3

theorem argpartitionTake_spec (row : List ℚ) (cap : ℕ) (hcap : cap < row.length) :
    ∃ sel, argpartitionTake row cap = some sel ∧
      sel.length = cap ∧ sel.Nodup ∧ (∀ j ∈ sel, j < row.length) ∧
      ∀ j ∈ sel, ∀ j' < row.length, j' ∉ sel →
        row.getD j 0 ≤ row.getD j' 0 := by
  set r : ℕ × ℚ → ℕ × ℚ → Prop := fun p q => p.2 ≤ q.2 with hr
  set A := List.insertionSort r (enumFrom 0 row) with hA
  have hperm : List.Perm A (enumFrom 0 row) := List.perm_insertionSort r _
  have hsort : List.Sorted r A := List.sorted_insertionSort r _
  have hlenA : A.length = row.length := by
    rw [hperm.length_eq, length_enumFrom]
  have hmemA : ∀ {p : ℕ × ℚ}, p ∈ A → p.1 < row.length ∧ p.2 = row.getD p.1 0 :=
    fun hp => mem_enumFrom_zero (hperm.mem_iff.1 hp)
  have hnodupA : (A.map Prod.fst).Nodup :=
    ((hperm.map Prod.fst).nodup_iff).2 (nodup_map_fst_enumFrom row 0)
  refine ⟨((A.take cap).map Prod.fst), ?_, ?_, ?_, ?_, ?_⟩
  · rw [argpartitionTake, if_pos hcap]
  · rw [List.length_map, List.length_take, hlenA]
    omega
  · rw [List.map_take]
    exact (List.take_sublist cap (A.map Prod.fst)).nodup hnodupA
  · intro j hj
    obtain ⟨p, hp, hpj⟩ := List.mem_map.1 hj
    have hpA : p ∈ A := List.mem_of_mem_take hp
    rw [← hpj]
    exact (hmemA hpA).1
  · intro j hj j' hj' hj'notin
    obtain ⟨p, hp, hpj⟩ := List.mem_map.1 hj
    have hpA : p ∈ A := List.mem_of_mem_take hp
    have hq : ((j', row.getD j' 0) : ℕ × ℚ) ∈ enumFrom 0 row := by
      have := mem_enumFrom_of_lt (0 : ℚ) row 0 j' hj'
      simpa using this
    have hqA : ((j', row.getD j' 0) : ℕ × ℚ) ∈ A := hperm.mem_iff.2 hq
    have hqdrop : ((j', row.getD j' 0) : ℕ × ℚ) ∈ A.drop cap := by
      have hsplit : ((j', row.getD j' 0) : ℕ × ℚ) ∈ A.take cap ++ A.drop cap := by
        rw [List.take_append_drop]; exact hqA
      rcases List.mem_append.1 hsplit with h | h
      · exfalso
        exact hj'notin (List.mem_map.2 ⟨(j', row.getD j' 0), h, rfl⟩)
      · exact h
    have hrel : r p (j', row.getD j' 0) :=
      hsort.rel_of_mem_take_of_mem_drop hp hqdrop
    have hp2 : p.2 = row.getD j 0 := by
      rw [(hmemA hpA).2, hpj]
    rw [← hp2]
    exact hrel

theorem selectRows_spec (cap : ℕ) :
    ∀ rows : List (List ℚ), (∀ row ∈ rows, cap < row.length) →
      ∃ assign, selectRows cap rows = some assign ∧
        assign.length = rows.length ∧
        ∀ i < rows.length,
          (assign.getD i []).length = cap ∧ (assign.getD i []).Nodup ∧
          (∀ j ∈ assign.getD i [], j < (rows.getD i []).length) ∧
          ∀ j ∈ assign.getD i [], ∀ j' < (rows.getD i []).length,
            j' ∉ assign.getD i [] →
            (rows.getD i []).getD j 0 ≤ (rows.getD i []).getD j' 0 := by
  intro rows
  induction rows with
  | nil =>
      intro _
      exact ⟨[], rfl, rfl, fun i hi => absurd hi (by simp)⟩
  | cons row rest ih =>
      intro hall
      obtain ⟨sel, hsel, hsp⟩ :=
        argpartitionTake_spec row cap (hall row (by simp))
      obtain ⟨assign, ha1, ha2, ha3⟩ := ih (fun x hx => hall x (by simp [hx]))
      refine ⟨sel :: assign, ?_, by simp [ha2], ?_⟩
      · rw [selectRows, hsel, ha1]
        rfl
      · intro i hi
        cases i with
        | zero =>
            simpa using hsp
        | succ i' =>
            have hi' : i' < rest.length := by simpa using hi
            simpa using ha3 i' hi'

/-! ### Remaining small helpers -/

theorem getD_mem_of_lt : ∀ (l : List α) (i : ℕ) (d : α), i < l.length → l.getD i d ∈ l := by
  intro l
  induction l with
  | nil => intro i d h; simp at h
  | cons x xs ih =>
      intro i d h
      cases i with
      | zero => simp
      | succ i' =>
          have hi' : i' < xs.length := by simpa using h
          rw [List.getD_cons_succ]
          exact List.mem_cons_of_mem x (ih i' d hi')

theorem countAssigned_kmeansSeeds (cents : List (ℚ × ℚ)) (b : BaseStation) :
    countAssigned ((enumFrom 0 cents).map (fun p =>
      (⟨p.1, p.2.1, p.2.2, none, [], 0⟩ : EdgeServer))) b = 0 := by
  apply List.sum_eq_zero
  intro x hx
  obtain ⟨e, he, hex⟩ := List.mem_map.1 hx
  obtain ⟨h1, _⟩ := kmeansSeeds_fresh he
  rw [← hex, h1]
  rfl

theorem totalWorkload_kmeansSeeds (cents : List (ℚ × ℚ)) :
    totalWorkload ((enumFrom 0 cents).map (fun p =>
      (⟨p.1, p.2.1, p.2.2, none, [], 0⟩ : EdgeServer))) = 0 := by
  apply List.sum_eq_zero
  intro x hx
  obtain ⟨e, he, hex⟩ := List.mem_map.1 hx
  obtain ⟨_, h2⟩ := kmeansSeeds_fresh he
  rw [← hex, h2]

theorem WInv_kmeansSeeds {cents : List (ℚ × ℚ)} :
    ∀ e ∈ (enumFrom 0 cents).map (fun p =>
      (⟨p.1, p.2.1, p.2.2, none, [], 0⟩ : EdgeServer)), WInv e := by
  intro e he
  obtain ⟨h1, h2⟩ := kmeansSeeds_fresh he
  constructor
  · rw [h1, h2]; rfl
  · rw [h1]; intro a ha; simp at ha

theorem workload_zero_of_filtered {e : EdgeServer}
    (hpe : (decide (e.workload ≠ 0)) = false) : e.workload = 0 := by
  simpa using hpe

/-- A successfully filtered k-means run: the intermediate assignment and the
final filtered list. -/
theorem kmeansPlace_some {cents : List (ℚ × ℚ)} {label : List ℕ}
    {bs : List BaseStation} {res : List EdgeServer}
    (h : kmeansPlace cents label bs = some res) :
    label.length = bs.length ∧
    ∃ mid, kmeansAssign ((enumFrom 0 cents).map (fun p =>
        (⟨p.1, p.2.1, p.2.2, none, [], 0⟩ : EdgeServer))) (bs.zip label) = some mid ∧
      mid.filter (fun e => decide (e.workload ≠ 0)) = res := by
  rw [kmeansPlace] at h
  by_cases hlen : label.length = bs.length
  · rw [if_pos hlen] at h
    obtain ⟨mid, hmid, hres⟩ := Option.map_eq_some'.1 h
    exact ⟨hlen, mid, hmid, hres⟩
  · rw [if_neg hlen] at h
    cases h

/-! ### The claims -/

/-- C9: calling `objective_latency` on a freshly constructed strategy
instance, before any successful `place_server` run (`self.edge_servers`
still unset), fails with the premature-evaluation error (the failing
`assert self.edge_servers`) and returns no value. -/
theorem C9_premature_evaluation (cd : CalcDist) (bs : List BaseStation)
    (dt : DistTable) :
    objective_latency cd (initState bs dt)
      = Except.error EvalError.prematureEvaluation := rfl

/-- C10: for every strategy, a completed `place_server` run leaves both
`self.base_stations` and `self.distances` exactly as they were; only
`self.edge_servers` is replaced. -/
theorem C10_place_server_frame (cd : CalcDist) (s s' : PlacementState) :
    (∀ k, topKPlaceServer cd s k = some s' →
      s'.base_stations = s.base_stations ∧ s'.distances = s.distances) ∧
    (∀ sample, randomPlaceServer cd s sample = some s' →
      s'.base_stations = s.base_stations ∧ s'.distances = s.distances) ∧
    (∀ cents label, kmeansPlaceServer s cents label = some s' →
      s'.base_stations = s.base_stations ∧ s'.distances = s.distances) ∧
    (∀ k, mipPlaceServer s k = some s' →
      s'.base_stations = s.base_stations ∧ s'.distances = s.distances) := by
  refine ⟨?_, ?_, ?_, ?_⟩
  · intro k h
    obtain ⟨es, -, hes⟩ := Option.map_eq_some'.1 h
    rw [← hes]
    exact ⟨rfl, rfl⟩
  · intro sample h
    obtain ⟨es, -, hes⟩ := Option.map_eq_some'.1 h
    rw [← hes]
    exact ⟨rfl, rfl⟩
  · intro cents label h
    obtain ⟨es, -, hes⟩ := Option.map_eq_some'.1 h
    rw [← hes]
    exact ⟨rfl, rfl⟩
  · intro k h
    obtain ⟨x, -, hx⟩ := Option.map_eq_some'.1 h
    rw [← hx]
    exact ⟨rfl, rfl⟩

/-- C5 counterexample: an edge server whose `base_station_id` is set to the
existing station id `0` still gets the geometric distance, not the table
entry, because Python's `if edge_server.base_station_id:` is falsy at `0`. -/
theorem C5_counterexample :
    esId0.base_station_id = some 0 ∧
    distES cdSum [[(9:ℚ)]] esId0 bsC
      = cdSum esId0.latitude esId0.longitude bsC.latitude bsC.longitude ∧
    distES cdSum [[(9:ℚ)]] esId0 bsC ≠ tableLookup [[(9:ℚ)]] 0 bsC.id := by
  refine ⟨rfl, rfl, ?_⟩
  norm_num [distES, tableLookup, cdSum, esId0, bsC]

/-- C5 (amended): the distance helper returns the table entry
`distances[edge_server.base_station_id][base_station.id]` exactly when the
co-located id is set AND nonzero; when it is `None` or `0` it returns the
geometric `calc_distance` of the two coordinate pairs. -/
theorem C5_distance_table_truthiness (cd : CalcDist) (dt : DistTable)
    (es : EdgeServer) (b : BaseStation) :
    (∀ i, es.base_station_id = some i → i ≠ 0 →
      distES cd dt es b = tableLookup dt i b.id) ∧
    ((es.base_station_id = none ∨ es.base_station_id = some 0) →
      distES cd dt es b = cd es.latitude es.longitude b.latitude b.longitude) := by
  constructor
  · intro i hi hne
    simp [distES, hi, hne]
  · rintro (h | h) <;> simp [distES, h]

/-- C2 counterexample: a Top-K run (two co-located unit-workload stations,
`k = 2`) whose result keeps an edge server with zero accumulated workload —
Top-K and Random do not filter degenerate servers. -/
theorem C2_counterexample :
    topKPlace cdZero dtAB [bsA, bsB] 2 = some topKDemoRes ∧
    (⟨1, 0, 0, some 1, [], 0⟩ : EdgeServer) ∈ topKDemoRes ∧
    (⟨1, 0, 0, some 1, [], 0⟩ : EdgeServer).workload = 0 := by
  refine ⟨?_, ?_, rfl⟩
  · norm_num [topKPlace, topKSeeds, seedServers, sortedByWorkloadDesc,
      List.insertionSort, List.orderedInsert, enumFrom, assignAll, assignBS,
      selectClosest, selectClosestAux, distES, tableLookup, sentinel, modifyAt,
      addAssignment, bsA, bsB, dtAB, cdZero, topKDemoRes]
  · exact List.mem_cons_of_mem _ (List.mem_singleton.2 rfl)

/-- C2 (amended): only `KMeansServerPlacement` filters out zero-workload
servers from its final placement; the Top-K and Random strategies keep every
seeded server, including zero-workload ones. -/
theorem C2_kmeans_filters_zero_workload (cents : List (ℚ × ℚ))
    (label : List ℕ) (bs : List BaseStation) (res : List EdgeServer)
    (h : kmeansPlace cents label bs = some res) :
    ∀ e ∈ res, e.workload ≠ 0 := by
  obtain ⟨-, mid, -, hres⟩ := kmeansPlace_some h
  intro e he
  rw [← hres] at he
  have hmem := List.mem_filter.1 he
  simpa using hmem.2

/-- C2 witness: a k-means run with a surviving (positive-workload) server,
evaluated concretely. -/
theorem C2_witness :
    kmeansPlace [((0:ℚ), (0:ℚ))] [0] [bsA] = some kmDemoRes ∧
    ∀ e ∈ kmDemoRes, e.workload ≠ 0 := by
  have hrun : kmeansPlace [((0:ℚ), (0:ℚ))] [0] [bsA] = some kmDemoRes := by
    norm_num [kmeansPlace, kmeansAssign, enumFrom, modifyAt, addAssignment,
      bsA, List.filter, kmDemoRes]
  exact ⟨hrun, C2_kmeans_filters_zero_workload _ _ _ _ hrun⟩

/-- C1 counterexample: a k-means run on a single zero-workload station with
one centroid: the station's only cluster is filtered out, so the station
ends up assigned to no edge server of the final placement. -/
theorem C1_counterexample :
    kmeansPlace [((0:ℚ), (0:ℚ))] [0] [bsW0] = some [] ∧
    countOcc bsW0 [bsW0] = 1 ∧
    countAssigned [] bsW0 = 0 := by
  refine ⟨?_, by decide, rfl⟩
  norm_num [kmeansPlace, kmeansAssign, enumFrom, modifyAt, addAssignment,
    bsW0, List.filter]

/-- C8 counterexample: with `k = 1` the partition index `cap = N` is out of
bounds for `numpy.argpartition` (valid kth is `0 ≤ kth < N`), so
`preprocess_problem` raises instead of computing the `⌊N/k⌋ = N` nearest
stations. -/
theorem C8_counterexample : preprocess_problem [[(0:ℚ)]] 1 1 = none := by
  decide

/-- C3 counterexample: `TopKServerPlacement.place_server` performs no
validation of `edge_server_num`: with one base station and `k = 2 > 1` it
silently succeeds (the slice just caps at the list length) instead of
failing with any error. -/
theorem C3_counterexample :
    2 > ([bsA] : List BaseStation).length ∧
    topKPlace cdZero [[(0:ℚ)]] [bsA] 2 = some [⟨0, 0, 0, some 0, [bsA], 1⟩] := by
  refine ⟨by decide, ?_⟩
  norm_num [topKPlace, topKSeeds, seedServers, sortedByWorkloadDesc,
    List.insertionSort, List.orderedInsert, enumFrom, assignAll, assignBS,
    selectClosest, selectClosestAux, distES, tableLookup, sentinel, modifyAt,
    addAssignment, bsA, cdZero]

/-- C1 (amended): whenever a placement run completes, every base-station
value ends up in the assignment lists of the result exactly as often as it
occurs in the input: for Top-K and Random this holds unconditionally on
completed runs; for k-means it additionally requires every workload to be
positive, because the final filter drops zero-workload clusters together
with their assigned stations. -/
theorem C1_each_station_assigned_once (cd : CalcDist) (dt : DistTable) :
    (∀ (bs : List BaseStation) (k : ℕ) (res : List EdgeServer),
      topKPlace cd dt bs k = some res →
      ∀ b, countAssigned res b = countOcc b bs) ∧
    (∀ (bs sample : List BaseStation) (res : List EdgeServer),
      randomPlace cd dt bs sample = some res →
      ∀ b, countAssigned res b = countOcc b bs) ∧
    (∀ (cents : List (ℚ × ℚ)) (label : List ℕ) (bs : List BaseStation)
      (res : List EdgeServer), (∀ b ∈ bs, 0 < b.workload) →
      kmeansPlace cents label bs = some res →
      ∀ b, countAssigned res b = countOcc b bs) := by
  refine ⟨?_, ?_, ?_⟩
  · intro bs k res h b
    obtain ⟨-, h2, -⟩ :=
      assignAll_some_spec cd dt (sortedByWorkloadDesc bs) (topKSeeds bs k) res h
    rw [h2 b, topKSeeds, countAssigned_seedServers, Nat.zero_add,
      countOcc_of_perm b (sortedByWorkloadDesc_perm bs)]
  · intro bs sample res h b
    obtain ⟨-, h2, -⟩ := assignAll_some_spec cd dt bs (seedServers sample) res h
    rw [h2 b, countAssigned_seedServers, Nat.zero_add]
  · intro cents label bs res hpos h b
    obtain ⟨hlen, mid, hmid, hres⟩ := kmeansPlace_some h
    obtain ⟨hcnt, -, hinv⟩ := kmeansAssign_some_spec (bs.zip label) _ mid hmid
    have hfst : (bs.zip label).map Prod.fst = bs :=
      List.map_fst_zip bs label (le_of_eq hlen.symm)
    have hW : ∀ e ∈ mid, WInv e := by
      apply hinv
      · intro q hq
        exact hpos q.1 (List.of_mem_zip hq).1
      · exact WInv_kmeansSeeds
    have hdrop : ∀ e ∈ mid, (decide (e.workload ≠ 0)) = false →
        countOcc b e.assigned_base_stations = 0 := by
      intro e he hpe
      have hWe := hW e he
      have hwl0 : e.workload = 0 := workload_zero_of_filtered hpe
      have hsum : (e.assigned_base_stations.map (fun x => x.workload)).sum = 0 := by
        rw [← hWe.1]; exact hwl0
      have hnil : e.assigned_base_stations.map (fun x => x.workload) = [] := by
        apply eq_nil_of_sum_eq_zero_of_pos ?_ hsum
        intro x hx
        obtain ⟨a, ha, hax⟩ := List.mem_map.1 hx
        rw [← hax]
        exact hWe.2 a ha
      have hmt : e.assigned_base_stations = [] := List.map_eq_nil_iff.1 hnil
      rw [hmt]
      rfl
    rw [← hres, countAssigned_filter mid b hdrop, hcnt b,
      countAssigned_kmeansSeeds, Nat.zero_add, hfst]

/-- C1 witness: the Top-K part evaluated on a concrete completed run. -/
theorem C1_witness :
    topKPlace cdZero dtAB [bsA, bsB] 2 = some topKDemoRes ∧
    countAssigned topKDemoRes bsA = countOcc bsA [bsA, bsB] := by
  have hrun : topKPlace cdZero dtAB [bsA, bsB] 2 = some topKDemoRes := by
    norm_num [topKPlace, topKSeeds, seedServers, sortedByWorkloadDesc,
      List.insertionSort, List.orderedInsert, enumFrom, assignAll, assignBS,
      selectClosest, selectClosestAux, distES, tableLookup, sentinel, modifyAt,
      addAssignment, bsA, bsB, dtAB, cdZero, topKDemoRes]
  exact ⟨hrun,
    (C1_each_station_assigned_once cdZero dtAB).1 [bsA, bsB] 2 topKDemoRes hrun bsA⟩

/-- C3 (amended): there is no `InvalidServerCountError` anywhere: Top-K
performs no count validation at all — an oversized `edge_server_num`
silently succeeds (seeding at most `n` servers), while `edge_server_num = 0`
crashes the shared assignment loop (`closest_edge_server` stays `None`) on
any nonempty input; Random with an empty sample crashes the same way. -/
theorem C3_no_invalid_server_count_error (cd : CalcDist) (dt : DistTable) :
    (∀ (bs : List BaseStation) (k : ℕ), bs ≠ [] →
      (∀ b ∈ bs, minDist cd dt b (topKSeeds bs k) < sentinel) →
      (topKPlace cd dt bs k).isSome = true) ∧
    (∀ bs : List BaseStation, bs ≠ [] → topKPlace cd dt bs 0 = none) ∧
    (∀ bs : List BaseStation, bs ≠ [] → randomPlace cd dt bs [] = none) := by
  refine ⟨?_, ?_, ?_⟩
  · intro bs k _ hd
    have hd2 : ∀ b ∈ sortedByWorkloadDesc bs,
        minDist cd dt b (topKSeeds bs k) < sentinel := by
      intro b hb
      exact hd b ((sortedByWorkloadDesc_perm bs).subset hb)
    obtain ⟨res, hres⟩ :=
      assignAll_isSome cd dt (sortedByWorkloadDesc bs) (topKSeeds bs k) hd2
    rw [topKPlace, hres]
    rfl
  · intro bs hne
    have hseeds : topKSeeds bs 0 = [] := by
      rw [topKSeeds, List.take_zero]
      rfl
    rw [topKPlace, hseeds]
    cases hs : sortedByWorkloadDesc bs with
    | nil =>
        exfalso
        apply hne
        have hlen := (sortedByWorkloadDesc_perm bs).length_eq
        rw [hs] at hlen
        exact List.length_eq_zero.1 hlen.symm
    | cons b rest => rfl
  · intro bs hne
    rw [randomPlace]
    have hseeds : seedServers [] = [] := rfl
    rw [hseeds]
    cases bs with
    | nil => exact absurd rfl hne
    | cons b rest => rfl

/-- C3 witness: a concrete nonempty input on which the amended behaviour is
evaluated. -/
theorem C3_witness :
    (topKPlace cdZero [[(0:ℚ)]] [bsA] 2).isSome = true ∧
    topKPlace cdZero [[(0:ℚ)]] [bsA] 0 = none ∧
    randomPlace cdZero [[(0:ℚ)]] [bsA] [] = none :=
  ⟨(C3_no_invalid_server_count_error cdZero [[(0:ℚ)]]).1 [bsA] 2 (by decide)
      (by decide),
   (C3_no_invalid_server_count_error cdZero [[(0:ℚ)]]).2.1 [bsA] (by decide),
   (C3_no_invalid_server_count_error cdZero [[(0:ℚ)]]).2.2 [bsA] (by decide)⟩

/-- C4: one step of the shared nearest-assignment loop appends the base
station to the candidate edge server of minimal
`_distance_edge_server_base_station` — on ties, to the first such candidate
in iteration order — and increases only that server's workload, by exactly
the station's workload (all other list entries are untouched). -/
theorem C4_nearest_assignment_step (cd : CalcDist) (dt : DistTable)
    (servers : List EdgeServer) (b : BaseStation)
    (h : minDist cd dt b servers < sentinel) :
    firstMinIdx cd dt b servers < servers.length ∧
    assignBS cd dt servers b
      = some (modifyAt servers (firstMinIdx cd dt b servers)
          (fun e => addAssignment e b)) ∧
    (∀ i < servers.length,
      distES cd dt (servers.getD (firstMinIdx cd dt b servers) dummyES) b
        ≤ distES cd dt (servers.getD i dummyES) b) ∧
    (∀ i < firstMinIdx cd dt b servers,
      distES cd dt (servers.getD (firstMinIdx cd dt b servers) dummyES) b
        < distES cd dt (servers.getD i dummyES) b) ∧
    (modifyAt servers (firstMinIdx cd dt b servers)
        (fun e => addAssignment e b)).getD (firstMinIdx cd dt b servers) dummyES
      = { servers.getD (firstMinIdx cd dt b servers) dummyES with
            assigned_base_stations :=
              (servers.getD (firstMinIdx cd dt b servers)
                dummyES).assigned_base_stations ++ [b],
            workload :=
              (servers.getD (firstMinIdx cd dt b servers) dummyES).workload
                + b.workload } ∧
    ∀ i, i ≠ firstMinIdx cd dt b servers →
      (modifyAt servers (firstMinIdx cd dt b servers)
          (fun e => addAssignment e b)).getD i dummyES
        = servers.getD i dummyES := by
  have hj := firstMinIdx_lt_length cd dt b servers h
  refine ⟨hj, ?_, ?_, ?_, ?_, ?_⟩
  · rw [assignBS_eq, if_pos h]
  · intro i hi
    rw [getD_firstMinIdx cd dt b servers h]
    exact minDist_le_distES cd dt b servers _ (getD_mem_of_lt servers i dummyES hi)
  · intro i hi
    rw [getD_firstMinIdx cd dt b servers h]
    exact firstMinIdx_strict cd dt b servers h i hi
  · rw [getD_modifyAt_self _ servers _ hj dummyES]
    rfl
  · intro i hi
    exact getD_modifyAt_ne _ servers _ i hi dummyES

/-- C4 witness: the step evaluated on a concrete server list. -/
theorem C4_witness :
    minDist cdZero [[(0:ℚ)]] bsA [seedA] < sentinel ∧
    assignBS cdZero [[(0:ℚ)]] [seedA] bsA
      = some (modifyAt [seedA] (firstMinIdx cdZero [[(0:ℚ)]] bsA [seedA])
          (fun e => addAssignment e bsA)) :=
  ⟨by decide,
   (C4_nearest_assignment_step cdZero [[(0:ℚ)]] [seedA] bsA (by decide)).2.1⟩

/-- C5 witness: both branches of the distance helper evaluated concretely
(truthy nonzero id takes the table, id `0` takes the geometric distance). -/
theorem C5_witness :
    distES cdSum dtNum esId1 bsC = tableLookup dtNum 1 bsC.id ∧
    distES cdSum dtNum esId0 bsC
      = cdSum esId0.latitude esId0.longitude bsC.latitude bsC.longitude :=
  ⟨(C5_distance_table_truthiness cdSum dtNum esId1 bsC).1 1 rfl (by decide),
   (C5_distance_table_truthiness cdSum dtNum esId0 bsC).2 (Or.inr rfl)⟩

/-- C6: `TopKServerPlacement` seeds at exactly the first `k` stations of
the stable descending-by-workload ordering of the input (the sort is a
permutation, descending, and keeps equal-workload stations in input order),
each seed carrying the latitude, longitude and co-located id of its
station; on the four equal-workload scenario stations with `k = 2` the
seeds sit at stations 0 and 1. -/
theorem C6_topk_seeding (l : List BaseStation) (k : ℕ) (w : ℚ) (i : ℕ)
    (b0 : BaseStation) :
    List.Perm (sortedByWorkloadDesc l) l ∧
    List.Sorted (fun a b => b.workload ≤ a.workload) (sortedByWorkloadDesc l) ∧
    (sortedByWorkloadDesc l).filter (fun b => decide (b.workload = w))
      = l.filter (fun b => decide (b.workload = w)) ∧
    (topKSeeds l k).length = min k l.length ∧
    (i < (topKSeeds l k).length →
      (topKSeeds l k).getD i dummyES =
        ⟨i, (((sortedByWorkloadDesc l).take k).getD i b0).latitude,
          (((sortedByWorkloadDesc l).take k).getD i b0).longitude,
          some (((sortedByWorkloadDesc l).take k).getD i b0).id, [], 0⟩) ∧
    topKSeeds demo4 2 = [⟨0, 0, 0, some 0, [], 0⟩, ⟨1, 0, 1, some 1, [], 0⟩] := by
  refine ⟨sortedByWorkloadDesc_perm l, sortedByWorkloadDesc_sorted l,
    sortedByWorkloadDesc_stable l w, ?_, ?_, by decide⟩
  · rw [topKSeeds, length_seedServers, List.length_take,
      (sortedByWorkloadDesc_perm l).length_eq]
  · intro hi
    rw [topKSeeds, length_seedServers] at hi
    rw [topKSeeds]
    exact getD_seedServers _ i hi b0

/-- C6 witness: the seed-field correspondence and the scenario, evaluated
at the concrete four-station input. -/
theorem C6_witness :
    0 < (topKSeeds demo4 2).length ∧
    (topKSeeds demo4 2).getD 0 dummyES =
      ⟨0, (((sortedByWorkloadDesc demo4).take 2).getD 0 bsA).latitude,
        (((sortedByWorkloadDesc demo4).take 2).getD 0 bsA).longitude,
        some (((sortedByWorkloadDesc demo4).take 2).getD 0 bsA).id, [], 0⟩ ∧
    topKSeeds demo4 2 = [⟨0, 0, 0, some 0, [], 0⟩, ⟨1, 0, 1, some 1, [], 0⟩] :=
  ⟨by decide,
   (C6_topk_seeding demo4 2 1 0 bsA).2.2.2.2.1 (by decide),
   (C6_topk_seeding demo4 2 1 0 bsA).2.2.2.2.2⟩

/-- C7: on every completed placement run the workload fields of the
resulting edge servers sum to the total workload of the input stations
(k-means keeps the sum because its filter only drops servers whose
workload is exactly zero). -/
theorem C7_workload_conservation (cd : CalcDist) (dt : DistTable) :
    (∀ (bs : List BaseStation) (k : ℕ) (res : List EdgeServer),
      1 ≤ k → k ≤ bs.length → topKPlace cd dt bs k = some res →
      totalWorkload res = (bs.map (fun x => x.workload)).sum) ∧
    (∀ (bs sample : List BaseStation) (res : List EdgeServer),
      randomPlace cd dt bs sample = some res →
      totalWorkload res = (bs.map (fun x => x.workload)).sum) ∧
    (∀ (cents : List (ℚ × ℚ)) (label : List ℕ) (bs : List BaseStation)
      (res : List EdgeServer), kmeansPlace cents label bs = some res →
      totalWorkload res = (bs.map (fun x => x.workload)).sum) := by
  refine ⟨?_, ?_, ?_⟩
  · intro bs k res _ _ h
    obtain ⟨-, -, h3⟩ :=
      assignAll_some_spec cd dt (sortedByWorkloadDesc bs) (topKSeeds bs k) res h
    rw [h3, topKSeeds, totalWorkload_seedServers, zero_add,
      ((sortedByWorkloadDesc_perm bs).map (fun x => x.workload)).sum_eq]
  · intro bs sample res h
    obtain ⟨-, -, h3⟩ := assignAll_some_spec cd dt bs (seedServers sample) res h
    rw [h3, totalWorkload_seedServers, zero_add]
  · intro cents label bs res h
    obtain ⟨hlen, mid, hmid, hres⟩ := kmeansPlace_some h
    obtain ⟨-, h2, -⟩ := kmeansAssign_some_spec (bs.zip label) _ mid hmid
    have hfst : (bs.zip label).map Prod.fst = bs :=
      List.map_fst_zip bs label (le_of_eq hlen.symm)
    have hdrop : ∀ e ∈ mid, (decide (e.workload ≠ 0)) = false → e.workload = 0 :=
      fun e _ hpe => workload_zero_of_filtered hpe
    rw [← hres, totalWorkload_filter mid hdrop, h2, totalWorkload_kmeansSeeds,
      zero_add, hfst]

/-- C7 witness: workload conservation on a concrete completed Top-K run. -/
theorem C7_witness :
    topKPlace cdZero dtAB [bsA, bsB] 2 = some topKDemoRes ∧
    totalWorkload topKDemoRes = (([bsA, bsB]).map (fun x => x.workload)).sum := by
  have hrun : topKPlace cdZero dtAB [bsA, bsB] 2 = some topKDemoRes := by
    norm_num [topKPlace, topKSeeds, seedServers, sortedByWorkloadDesc,
      List.insertionSort, List.orderedInsert, enumFrom, assignAll, assignBS,
      selectClosest, selectClosestAux, distES, tableLookup, sentinel, modifyAt,
      addAssignment, bsA, bsB, dtAB, cdZero, topKDemoRes]
  exact ⟨hrun, (C7_workload_conservation cdZero dtAB).1 [bsA, bsB] 2 topKDemoRes
    (by decide) (by decide) hrun⟩

/-- C8 (amended): whenever `⌊N/k⌋ < N` (in particular for every `k ≥ 2`
on a nonempty square table; `k = 1` makes argpartition's kth index out of
bounds and the call raises), `preprocess_problem` computes, for every base
station, exactly `⌊N/k⌋` distinct candidate indices whose table entries are
no greater than the entry of any non-selected index. -/
theorem C8_preprocess_nearest_neighborhoods (dt : DistTable) (n k : ℕ)
    (hk : k ≠ 0) (hsq : ∀ row ∈ dt, row.length = n) (hcap : n / k < n) :
    ∃ assign, preprocess_problem dt n k = some assign ∧
      assign.length = dt.length ∧
      ∀ i < dt.length,
        (assign.getD i []).length = n / k ∧
        (assign.getD i []).Nodup ∧
        (∀ j ∈ assign.getD i [], j < n) ∧
        ∀ j ∈ assign.getD i [], ∀ j' < n, j' ∉ assign.getD i [] →
          (dt.getD i []).getD j 0 ≤ (dt.getD i []).getD j' 0 := by
  have hall : ∀ row ∈ dt, n / k < row.length := by
    intro row hrow
    rw [hsq row hrow]
    exact hcap
  obtain ⟨assign, h1, h2, h3⟩ := selectRows_spec (n / k) dt hall
  refine ⟨assign, ?_, h2, ?_⟩
  · rw [preprocess_problem, if_neg hk, h1]
  · intro i hi
    obtain ⟨p1, p2, p3, p4⟩ := h3 i hi
    have hrowlen : (dt.getD i []).length = n :=
      hsq (dt.getD i []) (getD_mem_of_lt dt i [] hi)
    refine ⟨p1, p2, ?_, ?_⟩
    · intro j hj
      rw [← hrowlen]
      exact p3 j hj
    · intro j hj j' hj' hnot
      apply p4 j hj j'
      · rw [hrowlen]
        exact hj'
      · exact hnot

/-- C8 witness: the preprocessing evaluated on a concrete 2×2 table with
`k = 2`. -/
theorem C8_witness :
    ∃ assign, preprocess_problem [[(0:ℚ), 1], [1, 0]] 2 2 = some assign ∧
      assign.length = ([[(0:ℚ), 1], [1, 0]] : DistTable).length := by
  obtain ⟨assign, h1, h2, -⟩ :=
    C8_preprocess_nearest_neighborhoods [[(0:ℚ), 1], [1, 0]] 2 2 (by decide)
      (by decide) (by decide)
  exact ⟨assign, h1, h2⟩

/-- C10 witness: the frame property on a concrete completed Top-K run. -/
theorem C10_witness :
    topKPlaceServer cdZero (initState [bsA] [[(0:ℚ)]]) 2 = some stateDemo ∧
    stateDemo.base_stations = (initState [bsA] [[(0:ℚ)]]).base_stations ∧
    stateDemo.distances = (initState [bsA] [[(0:ℚ)]]).distances := by
  have hrun : topKPlaceServer cdZero (initState [bsA] [[(0:ℚ)]]) 2
      = some stateDemo := by
    norm_num [topKPlaceServer, initState, stateDemo, topKPlace, topKSeeds,
      seedServers, sortedByWorkloadDesc, List.insertionSort, List.orderedInsert,
      enumFrom, assignAll, assignBS, selectClosest, selectClosestAux, distES,
      tableLookup, sentinel, modifyAt, addAssignment, bsA, cdZero]
  refine ⟨hrun, ?_, ?_⟩
  · exact ((C10_place_server_frame cdZero (initState [bsA] [[(0:ℚ)]])
      stateDemo).1 2 hrun).1
  · exact ((C10_place_server_frame cdZero (initState [bsA] [[(0:ℚ)]])
      stateDemo).1 2 hrun).2
